import Mathlib

/-!
# Peg solitaire game core: a shallow embedding

This file embeds the game-state core of a peg-solitaire implementation
(`scripts.js`): the cell/board data model, the `Originator` game engine
(`tryMove`, `selectCell`, `checkGameState`, `save`/`restore`, `restartGame`),
the `Caretaker` undo stack, and the parts of the `UI` driver that touch the
engine and the history (`handleCellClick`, `handleUndo`, `startGame`,
`resetUI`).

JavaScript array indexing is modelled explicitly: `xs[i]` with `i` outside
`[0, xs.length)` yields `undefined` (here `Option.none` at the value level),
and reading a property of `undefined` — as in `board[r][c]` when `board[r]`
is `undefined` — throws a `TypeError`.  Functions that can throw are
`Option`-valued, `none` standing for the thrown exception.
-/

namespace PegSolitaire

/-- The three cell values of `CELL_TYPES`: `INVALID` is the `'-'` marker for
cells outside the cross, `EMPTY` is `0`, `PEG` is `1`. -/
inductive Cell where
  | invalid : Cell
  | empty : Cell
  | peg : Cell
deriving DecidableEq, Repr

/-- A board is a JS array of rows, each row a JS array of cells. -/
abbrev Board := List (List Cell)

/-- JS array read `xs[i]`: `none` is JavaScript's `undefined` (index outside
`[0, xs.length)`, including negative indices). -/
def jsGet {α : Type} (xs : List α) (i : Int) : Option α :=
  if 0 ≤ i then xs.get? i.toNat else none

/-- The expression `board[r]?.[c]` (optional chaining): never throws, yields
`none` when either index is out of range. -/
def readCellOpt (b : Board) (r c : Int) : Option Cell :=
  (jsGet b r).bind fun row => jsGet row c

/-- The expression `board[r][c]`: outer `none` models the `TypeError` thrown
when `board[r]` is `undefined`; `some none` is the `undefined` produced by a
column index outside the row. -/
def readCell (b : Board) (r c : Int) : Option (Option Cell) :=
  match jsGet b r with
  | none => none
  | some row => some (jsGet row c)

/-- The assignment `board[r][c] = v`.  Outer `none` models the `TypeError`
thrown when `board[r]` is `undefined`.  A column index at or beyond the row
length would lengthen the JS array; no code path reasoned about below ever
performs such a write, and it is modelled as a failure outcome. -/
def setCell (b : Board) (r c : Int) (v : Cell) : Option Board :=
  match jsGet b r with
  | none => none
  | some row =>
    if 0 ≤ c ∧ c.toNat < row.length then
      some (b.set r.toNat (row.set c.toNat v))
    else none

/-- `countPegs`: the number of `PEG` cells of a board, as computed by
`state.board.flat().filter(v => v === CELL_TYPES.PEG).length`. -/
def countPegs (b : Board) : Nat :=
  (b.flatten.filter fun v => decide (v = Cell.peg)).length

/-- The engine state owned by the `Originator`: `{ board, selectedPeg }`,
where `selectedPeg` is `null` or an `{ r, c }` pair. -/
structure GameState where
  board : Board
  selectedPeg : Option (Int × Int)
deriving DecidableEq, Repr

/-- The result values of `selectCell`. -/
inductive ActionType where
  | SELECT : ActionType
  | MOVE_SUCCESS : ActionType
  | NO_ACTION : ActionType
deriving DecidableEq, Repr

/-- The result of `checkGameState`. -/
structure GameStatus where
  isGameOver : Bool
  isWin : Bool
  pegsRemaining : Nat
deriving DecidableEq, Repr

/-- The `initialBoardLayout` literal: the 7×7 cross with one empty centre. -/
def initialBoardLayout : Board :=
  let i := Cell.invalid
  let e := Cell.empty
  let p := Cell.peg
  [[i, i, p, p, p, i, i],
   [i, i, p, p, p, i, i],
   [p, p, p, p, p, p, p],
   [p, p, p, e, p, p, p],
   [p, p, p, p, p, p, p],
   [i, i, p, p, p, i, i],
   [i, i, p, p, p, i, i]]

/-- The distance guard of `tryMove`:
`(Math.abs(dr) === 2 && dc === 0) || (Math.abs(dc) === 2 && dr === 0)`. -/
def isValidDistance (dr dc : Int) : Bool :=
  (dr.natAbs == 2 && dc == 0) || (dc.natAbs == 2 && dr == 0)

/-- `Originator.tryMove(fr, fc, tr, tc)`.  Returns `some (moved, board')`
when the call completes normally (`moved` the boolean result, `board'` the
board afterwards) and `none` when it throws. -/
def tryMove (b : Board) (fr fc tr tc : Int) : Option (Bool × Board) :=
  let dr := tr - fr
  let dc := tc - fc
  if !isValidDistance dr dc then some (false, b)
  else
    let mr := fr + dr / 2
    let mc := fc + dc / 2
    match readCell b mr mc with
    | none => none
    | some mv =>
      if mv ≠ some Cell.peg then some (false, b)
      else
        (setCell b fr fc Cell.empty).bind fun b1 =>
        (setCell b1 mr mc Cell.empty).bind fun b2 =>
        (setCell b2 tr tc Cell.peg).map fun b3 => (true, b3)

/-- `Originator.selectCell(r, c)`: `some (result, state')` on normal
completion, `none` when `board[r][c]` (or a board access inside `tryMove`)
throws. -/
def selectCell (s : GameState) (r c : Int) : Option (ActionType × GameState) :=
  (readCell s.board r c).bind fun cell =>
    if cell = some Cell.peg then
      some (ActionType.SELECT,
        { board := s.board
          selectedPeg :=
            if s.selectedPeg = some (r, c) then none else some (r, c) })
    else
      match s.selectedPeg with
      | some sel =>
        if cell = some Cell.empty then
          (tryMove s.board sel.1 sel.2 r c).bind fun mres =>
            if mres.1 then
              some (ActionType.MOVE_SUCCESS,
                { board := mres.2, selectedPeg := none })
            else
              some (ActionType.NO_ACTION,
                { board := mres.2, selectedPeg := s.selectedPeg })
        else some (ActionType.NO_ACTION, s)
      | none => some (ActionType.NO_ACTION, s)

/-- The `DIRECTIONS` table: `(dx, dy)` pairs, `dx` added to the row and `dy`
to the column. -/
def DIRECTIONS : List (Int × Int) :=
  [(0, 2), (0, -2), (2, 0), (-2, 0)]

/-- The inner direction loop of `checkGameState` for one peg at `(r, c)`:
counts the directions with
`board[nr]?.[nc] === EMPTY && board[mr]?.[mc] === PEG`. -/
def cellMoves (board : Board) (r c : Int) : Nat :=
  (DIRECTIONS.filter fun d =>
    decide (readCellOpt board (r + d.1) (c + d.2) = some Cell.empty) &&
    decide (readCellOpt board (r + d.1 / 2) (c + d.2 / 2) = some Cell.peg)).length

/-- The row/column scan of `checkGameState`: the positions `(r, c)` with
`board[r][c] === PEG`, in loop order. -/
def pegCells (board : Board) : List (Nat × Nat) :=
  board.enum.flatMap fun rw =>
    rw.2.enum.flatMap fun cc =>
      if cc.2 = Cell.peg then [(rw.1, cc.1)] else []

/-- `Originator.checkGameState()`: counts pegs and available moves and
derives `{ isGameOver, isWin, pegsRemaining }`. -/
def checkGameState (board : Board) : GameStatus :=
  let pegs := (pegCells board).length
  let possibleMoves := ((pegCells board).map fun p => cellMoves board p.1 p.2).sum
  { isGameOver := pegs == 1 || possibleMoves == 0
    isWin := pegs == 1
    pegsRemaining := pegs }

/-- `ConcreteMemento` at the value level: the constructor's
`JSON.parse(JSON.stringify(state))` stores a deep copy, and for board and
selection data the round trip preserves the value exactly, so the memento
is modelled by the stored state value.  (The `date` / `getName` label is
presentation metadata used by no claim; reference-level aliasing is
modelled separately below.) -/
structure ConcreteMemento where
  state : GameState
deriving DecidableEq, Repr

/-- `Originator.save()`: captures the current state in a memento. -/
def save (s : GameState) : ConcreteMemento := ⟨s⟩

/-- `ConcreteMemento.getState()` at the value level. -/
def ConcreteMemento.getState (m : ConcreteMemento) : GameState := m.state

/-- `Originator.restore(memento)`: rebuilds both fields from the memento —
`savedState.board.map(row => [...row])` and a spread copy of `selectedPeg`;
row copying preserves the value, and the old state is discarded. -/
def restore (_s : GameState) (m : ConcreteMemento) : GameState :=
  { board := m.getState.board, selectedPeg := m.getState.selectedPeg }

/-- `Originator.restartGame()` (also the constructor's initial state):
`board = initialLayout.map(row => [...row])`, `selectedPeg = null`, with
the program's `initialBoardLayout`. -/
def restartGame : GameState :=
  { board := initialBoardLayout, selectedPeg := none }

/-- The engine together with the `Caretaker`'s memento stack (most recent
last, as pushed by `backup()` and popped by `undo()`). -/
structure Sys where
  game : GameState
  mementos : List ConcreteMemento
deriving DecidableEq, Repr

/-- The operations that can touch engine state: a cell selection, a game
restart, a `Caretaker.backup()`, and a `Caretaker.undo()`. -/
inductive Op where
  | select (r c : Int) : Op
  | restart : Op
  | backup : Op
  | undo : Op

/-- One operation on engine plus caretaker; `none` when the operation
throws. -/
def stepSys (s : Sys) : Op → Option Sys
  | Op.select r c =>
    (selectCell s.game r c).map fun res => { s with game := res.2 }
  | Op.restart => some { s with game := restartGame }
  | Op.backup => some { s with mementos := s.mementos ++ [save s.game] }
  | Op.undo =>
    s.mementos.getLast?.elim (some s) fun m =>
      some { game := restore s.game m, mementos := s.mementos.dropLast }

/-- The systems reachable from a fresh engine (initial layout, no
selection, empty history) by completed operations. -/
inductive ReachableSys : Sys → Prop where
  | init : ReachableSys { game := restartGame, mementos := [] }
  | step {s s' : Sys} (op : Op) :
      ReachableSys s → stepSys s op = some s' → ReachableSys s'

/-- The part of the `UI` object's state that interacts with the engine and
the history: the `gameStarted` flag plus the originator and caretaker it
drives. -/
structure UIState where
  gameStarted : Bool
  game : GameState
  mementos : List ConcreteMemento
deriving DecidableEq, Repr

/-- The user gestures the `UI` processes: the start/restart button, the
stop button (`resetUI`), an undo request (button or ctrl-z), and a click on
a board cell. -/
inductive Gesture where
  | startRestart : Gesture
  | stop : Gesture
  | undoClick : Gesture
  | cellClick (r c : Int) : Gesture

/-- `UI.handleCellClick(r, c)`: when the game is running, reads the clicked
cell, pushes a backup when the cell is `EMPTY` and a peg is selected (before
knowing whether the move will succeed), runs `selectCell`, and on
`MOVE_SUCCESS` runs `checkGameStatus`, which ends the game when
`isGameOver`.  `none` models a thrown `TypeError`. -/
def handleCellClick (u : UIState) (r c : Int) : Option UIState :=
  if !u.gameStarted then some u
  else
    (readCell u.game.board r c).bind fun cell =>
      let mems :=
        if cell = some Cell.empty ∧ u.game.selectedPeg ≠ none then
          u.mementos ++ [save u.game]
        else u.mementos
      (selectCell u.game r c).bind fun res =>
        let started :=
          if res.1 = ActionType.MOVE_SUCCESS ∧
              (checkGameState res.2.board).isGameOver = true then
            false
          else u.gameStarted
        some { gameStarted := started, game := res.2, mementos := mems }

/-- One user gesture processed by the `UI`: `startGame` restarts the engine
and clears the history, `resetUI` does the same with the game stopped,
`handleUndo` delegates to `Caretaker.undo()`, and a cell click runs
`handleCellClick`.  (DOM, timer and label updates carry no engine state and
are omitted.) -/
def uiStep (u : UIState) : Gesture → Option UIState
  | Gesture.startRestart =>
    some { gameStarted := true, game := restartGame, mementos := [] }
  | Gesture.stop =>
    some { gameStarted := false, game := restartGame, mementos := [] }
  | Gesture.undoClick =>
    u.mementos.getLast?.elim (some u) fun m =>
      some { u with game := restore u.game m, mementos := u.mementos.dropLast }
  | Gesture.cellClick r c => handleCellClick u r c

namespace RefModel

/-- A heap of `GameState` objects, for reasoning about aliasing between a
memento and the live engine state: the address of an object is its index,
and mutating any part of an object (its nested board arrays included) is
modelled as overwriting the value stored at its address. -/
structure Heap where
  objs : List GameState
deriving DecidableEq, Repr

/-- Dereference an address. -/
def Heap.read (h : Heap) (a : Nat) : Option GameState := h.objs.get? a

/-- Mutate the object at an address. -/
def Heap.write (h : Heap) (a : Nat) (v : GameState) : Heap := ⟨h.objs.set a v⟩

/-- Allocate a fresh object, returning the new heap and its address. -/
def Heap.alloc (h : Heap) (v : GameState) : Heap × Nat :=
  (⟨h.objs ++ [v]⟩, h.objs.length)

/-- A `ConcreteMemento` object: its `state` field holds a reference. -/
structure MementoRef where
  stateAddr : Nat
deriving DecidableEq, Repr

/-- `new ConcreteMemento(state)`: receives a reference to the originator's
state object and stores `JSON.parse(JSON.stringify(state))` — a freshly
allocated deep copy with the same value. -/
def newConcreteMemento (h : Heap) (stateAddr : Nat) :
    Option (Heap × MementoRef) :=
  (h.read stateAddr).map fun v =>
    let al := h.alloc v
    (al.1, ⟨al.2⟩)

/-- `ConcreteMemento.getState()` is `return this.state;` — it hands out the
stored internal reference itself, not a copy. -/
def MementoRef.getState (m : MementoRef) : Nat := m.stateAddr

/-- `Originator.restore(memento)` at the reference level: dereferences
`memento.getState()` and assigns freshly copied arrays into the
originator's own state object, which keeps its address; only its value
changes. -/
def restoreRef (h : Heap) (engineAddr : Nat) (m : MementoRef) : Option Heap :=
  (h.read m.getState).map fun v => h.write engineAddr v

end RefModel

/-- Spec-side `cellAt` (Board Model helper): the cell at `(r, c)`, or the
off-grid sentinel `none` when `(r, c)` is outside the array bounds. -/
def cellAt (b : Board) (r c : Int) : Option Cell := readCellOpt b r c

/-- Spec-side jump directions: ±2 rows, then ±2 columns. -/
def specJumpDirections : List (Int × Int) :=
  [(2, 0), (-2, 0), (0, 2), (0, -2)]

/-- Spec-side count of available moves for one peg at `(r, c)`, following
the spec's description of `evaluateTerminalState`: a direction counts when
the adjacent midpoint (one step toward the landing cell) holds a PEG and
the in-bounds landing cell two steps away is EMPTY. -/
def specCellMoves (b : Board) (r c : Int) : Nat :=
  (specJumpDirections.filter fun d =>
    decide (cellAt b (r + d.1 / 2) (c + d.2 / 2) = some Cell.peg) &&
    decide (cellAt b (r + d.1) (c + d.2) = some Cell.empty)).length

/-- Spec-side total count of available moves: scans every PEG on the board
and sums its per-peg available moves. -/
def specAvailableMoves (b : Board) : Nat :=
  ((pegCells b).map fun p => specCellMoves b p.1 p.2).sum

/-- A position is in-bounds when `board[r]?.[c]` yields a cell value. -/
def InBounds (b : Board) (r c : Int) : Prop :=
  (readCellOpt b r c).isSome = true

instance (b : Board) (r c : Int) : Decidable (InBounds b r c) := by
  unfold InBounds; infer_instance

/-- The number of `PEG` cells of a single row. -/
def countRow (row : List Cell) : Nat :=
  (row.filter fun v => decide (v = Cell.peg)).length

/-- The selection invariant: whenever a peg is selected, the selected
position holds a `PEG`. -/
def SelInv (g : GameState) : Prop :=
  ∀ p : Int × Int, g.selectedPeg = some p →
    readCellOpt g.board p.1 p.2 = some Cell.peg

/-- The board-shape invariant: a cell reads `OUT_OF_BOARD` exactly when the
same cell of the initial layout does. -/
def ShapeInv (g : GameState) : Prop :=
  ∀ r c : Int,
    readCellOpt g.board r c = some Cell.invalid ↔
      readCellOpt initialBoardLayout r c = some Cell.invalid

/-- Both engine-state invariants together. -/
def GoodState (g : GameState) : Prop := SelInv g ∧ ShapeInv g

/-- The system invariant: the live engine state and every archived memento
satisfy the engine-state invariants. -/
def GoodSys (s : Sys) : Prop :=
  GoodState s.game ∧ ∀ m ∈ s.mementos, GoodState m.state

/-- A one-cell game state used as a concrete heap value. -/
def refStateA : GameState := ⟨[[Cell.peg]], none⟩

/-- Another one-cell game state, distinct from `refStateA`. -/
def refStateB : GameState := ⟨[[Cell.empty]], none⟩

/-- The board after the jump from `(3, 1)` over `(3, 2)` into the centre
`(3, 3)` of the initial layout; used as a concrete example. -/
def movedBoardExample : Board :=
  let i := Cell.invalid
  let e := Cell.empty
  let p := Cell.peg
  [[i, i, p, p, p, i, i],
   [i, i, p, p, p, i, i],
   [p, p, p, p, p, p, p],
   [p, e, e, p, p, p, p],
   [p, p, p, p, p, p, p],
   [i, i, p, p, p, i, i],
   [i, i, p, p, p, i, i]]

theorem jsGet_neg {α : Type} {xs : List α} {i : Int} (h : i < 0) :
    jsGet xs i = none := by
  simp only [jsGet, if_neg (by omega : ¬ 0 ≤ i)]

theorem jsGet_nonneg {α : Type} (xs : List α) {i : Int} (h : 0 ≤ i) :
    jsGet xs i = xs.get? i.toNat := by
  simp only [jsGet, if_pos h]

theorem jsGet_eq_some_iff {α : Type} {xs : List α} {i : Int} {v : α} :
    jsGet xs i = some v ↔ 0 ≤ i ∧ xs.get? i.toNat = some v := by
  by_cases h : 0 ≤ i
  · simp [jsGet_nonneg xs h, h]
  · simp [jsGet_neg (by omega : i < 0), h]

theorem readCellOpt_eq_some_iff {b : Board} {r c : Int} {v : Cell} :
    readCellOpt b r c = some v ↔
      0 ≤ r ∧ 0 ≤ c ∧
        ∃ row, b.get? r.toNat = some row ∧ row.get? c.toNat = some v := by
  unfold readCellOpt
  by_cases hr : 0 ≤ r
  · rw [jsGet_nonneg b hr]
    cases hrow : b.get? r.toNat with
    | none => simp [hrow, hr]
    | some row =>
      by_cases hc : 0 ≤ c
      · simp [hrow, hr, hc, jsGet_nonneg row hc]
      · simp [hrow, hr, hc, jsGet_neg (by omega : c < 0)]
  · rw [jsGet_neg (by omega : r < 0)]
    simp [hr]

theorem InBounds_iff {b : Board} {r c : Int} :
    InBounds b r c ↔
      0 ≤ r ∧ 0 ≤ c ∧
        ∃ row, b.get? r.toNat = some row ∧ c.toNat < row.length := by
  unfold InBounds
  rw [Option.isSome_iff_exists]
  constructor
  · rintro ⟨v, hv⟩
    obtain ⟨hr, hc, row, hrow, hget⟩ := readCellOpt_eq_some_iff.mp hv
    exact ⟨hr, hc, row, hrow, (List.get?_eq_some.mp hget).1⟩
  · rintro ⟨hr, hc, row, hrow, hlt⟩
    exact ⟨row.get ⟨c.toNat, hlt⟩,
      readCellOpt_eq_some_iff.mpr ⟨hr, hc, row, hrow, List.get?_eq_get hlt⟩⟩

theorem setCell_eq_some_iff {b : Board} {r c : Int} {v : Cell} {b' : Board} :
    setCell b r c v = some b' ↔
      0 ≤ r ∧ 0 ≤ c ∧
        ∃ row, b.get? r.toNat = some row ∧ c.toNat < row.length ∧
          b' = b.set r.toNat (row.set c.toNat v) := by
  unfold setCell
  by_cases hr : 0 ≤ r
  · rw [jsGet_nonneg b hr]
    cases hrow : b.get? r.toNat with
    | none => simp [hr]
    | some row =>
      by_cases hc : 0 ≤ c ∧ c.toNat < row.length
      · simp only [if_pos hc]
        constructor
        · rintro h
          exact ⟨hr, hc.1, row, rfl, hc.2, (Option.some_inj.mp h).symm⟩
        · rintro ⟨-, -, row', hrow', hlt', hb'⟩
          obtain rfl : row = row' := Option.some_inj.mp hrow'
          simp [hb']
      · simp only [if_neg hc]
        constructor
        · rintro h; exact absurd h (by simp)
        · rintro ⟨-, hc', row', hrow', hlt', -⟩
          obtain rfl : row = row' := Option.some_inj.mp hrow'
          exact absurd ⟨hc', hlt'⟩ hc
  · rw [jsGet_neg (by omega : r < 0)]
    simp [hr]

theorem setCell_total {b : Board} {r c : Int} (v : Cell)
    (h : InBounds b r c) : ∃ b', setCell b r c v = some b' := by
  obtain ⟨hr, hc, row, hrow, hlt⟩ := InBounds_iff.mp h
  exact ⟨_, setCell_eq_some_iff.mpr ⟨hr, hc, row, hrow, hlt, rfl⟩⟩

theorem setCell_length {b b' : Board} {r c : Int} {v : Cell}
    (h : setCell b r c v = some b') : b'.length = b.length := by
  obtain ⟨-, -, row, -, -, rfl⟩ := setCell_eq_some_iff.mp h
  simp [List.length_set]

theorem setCell_rowLength {b b' : Board} {r c : Int} {v : Cell}
    (h : setCell b r c v = some b') (i : Nat) :
    (b'.get? i).map List.length = (b.get? i).map List.length := by
  obtain ⟨hr, hc, row, hrow, hlt, rfl⟩ := setCell_eq_some_iff.mp h
  by_cases hi : r.toNat = i
  · subst hi
    rw [List.get?_set_eq_of_lt _ (by exact (List.get?_eq_some.mp hrow).1), hrow]
    simp [List.length_set]
  · rw [List.get?_set_ne _ _ hi]

theorem setCell_read_self {b b' : Board} {r c : Int} {v : Cell}
    (h : setCell b r c v = some b') : readCellOpt b' r c = some v := by
  obtain ⟨hr, hc, row, hrow, hlt, rfl⟩ := setCell_eq_some_iff.mp h
  refine readCellOpt_eq_some_iff.mpr ⟨hr, hc, row.set c.toNat v, ?_, ?_⟩
  · rw [List.get?_set_eq_of_lt _ (by exact (List.get?_eq_some.mp hrow).1)]
  · exact List.get?_set_eq_of_lt _ hlt

theorem setCell_read_other {b b' : Board} {r c r' c' : Int} {v : Cell}
    (h : setCell b r c v = some b') (hne : ¬(r' = r ∧ c' = c)) :
    readCellOpt b' r' c' = readCellOpt b r' c' := by
  obtain ⟨hr, hc, row, hrow, hlt, rfl⟩ := setCell_eq_some_iff.mp h
  by_cases hr' : 0 ≤ r'
  · by_cases hrr : r'.toNat = r.toNat
    · have hrint : r' = r := by omega
      subst hrint
      have hcc : ¬ c' = c := fun hcc => hne ⟨rfl, hcc⟩
      unfold readCellOpt
      rw [jsGet_nonneg _ hr', jsGet_nonneg _ hr', hrr,
        List.get?_set_eq_of_lt _ (by exact (List.get?_eq_some.mp hrow).1), hrow]
      simp only [Option.some_bind]
      by_cases hc' : 0 ≤ c'
      · rw [jsGet_nonneg _ hc', jsGet_nonneg _ hc',
          List.get?_set_ne _ _ (by omega : c.toNat ≠ c'.toNat)]
      · rw [jsGet_neg (by omega : c' < 0), jsGet_neg (by omega : c' < 0)]
    · unfold readCellOpt
      rw [jsGet_nonneg _ hr', jsGet_nonneg _ hr',
        List.get?_set_ne _ _ (by omega : r.toNat ≠ r'.toNat)]
  · unfold readCellOpt
    simp [jsGet_neg (by omega : r' < 0)]

/-- The row of the jumped-over midpoint, `mr = fr + dr / 2`. -/
def midRow (fr tr : Int) : Int := fr + (tr - fr) / 2

/-- The column of the jumped-over midpoint, `mc = fc + dc / 2`. -/
def midCol (fc tc : Int) : Int := fc + (tc - fc) / 2

theorem readCell_some_some_iff {b : Board} {r c : Int} {v : Cell} :
    readCell b r c = some (some v) ↔ readCellOpt b r c = some v := by
  unfold readCell readCellOpt
  cases h : jsGet b r <;> simp

theorem readCell_none_iff {b : Board} {r c : Int} :
    readCell b r c = none ↔ jsGet b r = none := by
  unfold readCell
  cases h : jsGet b r <;> simp

theorem InBounds_of_read {b : Board} {r c : Int} {v : Cell}
    (h : readCellOpt b r c = some v) : InBounds b r c := by
  unfold InBounds; simp [h]

theorem InBounds_setCell {b b' : Board} {r c : Int} {v : Cell}
    (h : setCell b r c v = some b') (r' c' : Int) :
    InBounds b' r' c' ↔ InBounds b r' c' := by
  rw [InBounds_iff, InBounds_iff]
  have hlen := setCell_rowLength h r'.toNat
  constructor
  · rintro ⟨h1, h2, row', hg, hl⟩
    rw [hg] at hlen
    cases hb : b.get? r'.toNat with
    | none => rw [hb] at hlen; simp at hlen
    | some row =>
      rw [hb] at hlen
      simp only [Option.map_some', Option.some_inj] at hlen
      exact ⟨h1, h2, row, rfl, by omega⟩
  · rintro ⟨h1, h2, row, hg, hl⟩
    rw [hg] at hlen
    cases hb : b'.get? r'.toNat with
    | none => rw [hb] at hlen; simp at hlen
    | some row' =>
      rw [hb] at hlen
      simp only [Option.map_some', Option.some_inj] at hlen
      exact ⟨h1, h2, row', rfl, by omega⟩

theorem isValidDistance_cases {dr dc : Int} (h : isValidDistance dr dc = true) :
    (dr = 2 ∧ dc = 0) ∨ (dr = -2 ∧ dc = 0) ∨
    (dc = 2 ∧ dr = 0) ∨ (dc = -2 ∧ dr = 0) := by
  simp only [isValidDistance, Bool.or_eq_true, Bool.and_eq_true, beq_iff_eq] at h
  omega

/-- Unfolding equation for `tryMove` in terms of the midpoint helpers. -/
theorem tryMove_eq (b : Board) (fr fc tr tc : Int) :
    tryMove b fr fc tr tc =
      if isValidDistance (tr - fr) (tc - fc) = false then some (false, b)
      else
        (readCell b (midRow fr tr) (midCol fc tc)).bind fun mv =>
          if mv ≠ some Cell.peg then some (false, b)
          else
            (setCell b fr fc Cell.empty).bind fun b1 =>
            (setCell b1 (midRow fr tr) (midCol fc tc) Cell.empty).bind fun b2 =>
            (setCell b2 tr tc Cell.peg).map fun b3 => (true, b3) := by
  unfold tryMove midRow midCol
  cases hv : isValidDistance (tr - fr) (tc - fc) <;>
    cases hm : readCell b (fr + (tr - fr) / 2) (fc + (tc - fc) / 2) <;>
      simp [hv, hm]

theorem tryMove_not_valid {b : Board} {fr fc tr tc : Int}
    (h : isValidDistance (tr - fr) (tc - fc) = false) :
    tryMove b fr fc tr tc = some (false, b) := by
  rw [tryMove_eq, if_pos h]

theorem tryMove_mid_not_peg {b : Board} {fr fc tr tc : Int} {mv : Option Cell}
    (hv : isValidDistance (tr - fr) (tc - fc) = true)
    (hm : readCell b (midRow fr tr) (midCol fc tc) = some mv)
    (hne : mv ≠ some Cell.peg) :
    tryMove b fr fc tr tc = some (false, b) := by
  rw [tryMove_eq, if_neg (by simp [hv]), hm]
  simp [hne]

/-- On a `true` result, `tryMove` performed exactly the three writes: the
conditions that made them possible are recovered here. -/
theorem tryMove_true_elim {b b' : Board} {fr fc tr tc : Int}
    (h : tryMove b fr fc tr tc = some (true, b')) :
    isValidDistance (tr - fr) (tc - fc) = true ∧
    readCellOpt b (midRow fr tr) (midCol fc tc) = some Cell.peg ∧
    ∃ b1 b2, setCell b fr fc Cell.empty = some b1 ∧
      setCell b1 (midRow fr tr) (midCol fc tc) Cell.empty = some b2 ∧
      setCell b2 tr tc Cell.peg = some b' := by
  rw [tryMove_eq] at h
  by_cases hv : isValidDistance (tr - fr) (tc - fc) = true
  · rw [if_neg (by simp [hv])] at h
    cases hm : readCell b (midRow fr tr) (midCol fc tc) with
    | none => rw [hm] at h; exact absurd h (by simp)
    | some mv =>
      rw [hm] at h
      simp only [Option.some_bind] at h
      by_cases hp : mv = some Cell.peg
      · subst hp
        rw [if_neg (by simp)] at h
        simp only [Option.bind_eq_some, Option.map_eq_some'] at h
        obtain ⟨b1, h1, b2, h2, b3, h3, hb3⟩ := h
        simp only [Prod.mk.injEq, true_and] at hb3
        subst hb3
        exact ⟨hv, readCell_some_some_iff.mp hm, b1, b2, h1, h2, h3⟩
      · rw [if_pos (by simp [hp])] at h
        exact absurd (Option.some_inj.mp h) (by simp)
  · rw [if_pos (by simpa using hv)] at h
    exact absurd (Option.some_inj.mp h) (by simp)

theorem tryMove_false_elim {b b' : Board} {fr fc tr tc : Int}
    (h : tryMove b fr fc tr tc = some (false, b')) : b' = b := by
  rw [tryMove_eq] at h
  by_cases hv : isValidDistance (tr - fr) (tc - fc) = true
  · rw [if_neg (by simp [hv])] at h
    cases hm : readCell b (midRow fr tr) (midCol fc tc) with
    | none => rw [hm] at h; exact absurd h (by simp)
    | some mv =>
      rw [hm] at h
      simp only [Option.some_bind] at h
      by_cases hp : mv = some Cell.peg
      · subst hp
        rw [if_neg (by simp)] at h
        simp only [Option.bind_eq_some, Option.map_eq_some'] at h
        obtain ⟨b1, -, b2, -, b3, -, hb3⟩ := h
        simp at hb3
      · rw [if_pos (by simp [hp])] at h
        exact ((Prod.mk.injEq _ _ _ _).mp (Option.some_inj.mp h)).2.symm
  · rw [if_pos (by simpa using hv)] at h
    exact ((Prod.mk.injEq _ _ _ _).mp (Option.some_inj.mp h)).2.symm

theorem tryMove_false_not {b b' : Board} {fr fc tr tc : Int}
    (h : tryMove b fr fc tr tc = some (false, b')) :
    ¬(isValidDistance (tr - fr) (tc - fc) = true ∧
      readCellOpt b (midRow fr tr) (midCol fc tc) = some Cell.peg) := by
  rintro ⟨hv, hmid⟩
  rw [tryMove_eq, if_neg (by simp [hv]), readCell_some_some_iff.mpr hmid,
    Option.some_bind, if_neg (by simp)] at h
  simp only [Option.bind_eq_some, Option.map_eq_some'] at h
  obtain ⟨b1, -, b2, -, b3, -, hb3⟩ := h
  simp at hb3

/-- The origin, midpoint and destination of a valid-distance jump are three
pairwise distinct cells, and the midpoint lies between the endpoints. -/
theorem mid_facts {fr fc tr tc : Int}
    (h : isValidDistance (tr - fr) (tc - fc) = true) :
    ¬(fr = midRow fr tr ∧ fc = midCol fc tc) ∧
    ¬(fr = tr ∧ fc = tc) ∧
    ¬(midRow fr tr = tr ∧ midCol fc tc = tc) ∧
    min fr tr ≤ midRow fr tr ∧ midRow fr tr ≤ max fr tr ∧
    min fc tc ≤ midCol fc tc ∧ midCol fc tc ≤ max fc tc := by
  have := isValidDistance_cases h
  unfold midRow midCol
  omega

/-- Cell-level description of a successful `tryMove`: origin and midpoint
become `EMPTY`, the destination becomes `PEG`, every other cell is
untouched. -/
theorem tryMove_true_reads {b b' : Board} {fr fc tr tc : Int}
    (h : tryMove b fr fc tr tc = some (true, b')) :
    readCellOpt b' fr fc = some Cell.empty ∧
    readCellOpt b' (midRow fr tr) (midCol fc tc) = some Cell.empty ∧
    readCellOpt b' tr tc = some Cell.peg ∧
    ∀ r c : Int, ¬(r = fr ∧ c = fc) →
      ¬(r = midRow fr tr ∧ c = midCol fc tc) → ¬(r = tr ∧ c = tc) →
      readCellOpt b' r c = readCellOpt b r c := by
  obtain ⟨hv, hmid, b1, b2, h1, h2, h3⟩ := tryMove_true_elim h
  obtain ⟨hom, hot, hmt, -⟩ := mid_facts hv
  refine ⟨?_, ?_, ?_, ?_⟩
  · rw [setCell_read_other h3 (by tauto), setCell_read_other h2 hom,
      setCell_read_self h1]
  · rw [setCell_read_other h3 hmt, setCell_read_self h2]
  · exact setCell_read_self h3
  · intro r c hno hnm hnt
    rw [setCell_read_other h3 hnt, setCell_read_other h2 hnm,
      setCell_read_other h1 hno]

/-- `tryMove` completes normally — it never throws — whenever its arguments
are in-bounds positions. -/
theorem tryMove_total {b : Board} {fr fc tr tc : Int}
    (hf : InBounds b fr fc) (ht : InBounds b tr tc) :
    ∃ res, tryMove b fr fc tr tc = some res := by
  rw [tryMove_eq]
  by_cases hv : isValidDistance (tr - fr) (tc - fc) = true
  case neg => exact ⟨(false, b), by rw [if_pos (by simpa using hv)]⟩
  rw [if_neg (by simp [hv])]
  obtain ⟨hfr, hfc, rowf, hrowf, hlf⟩ := InBounds_iff.mp hf
  obtain ⟨htr0, htc0, rowt, hrowt, hltc⟩ := InBounds_iff.mp ht
  have hfrlen : fr.toNat < b.length := (List.get?_eq_some.mp hrowf).1
  have htrlen : tr.toNat < b.length := (List.get?_eq_some.mp hrowt).1
  have hd := isValidDistance_cases hv
  have hmr0 : 0 ≤ midRow fr tr := by unfold midRow; omega
  have hmrlen : (midRow fr tr).toNat < b.length := by unfold midRow; omega
  obtain ⟨rowm, hrowm⟩ : ∃ rowm, b.get? (midRow fr tr).toNat = some rowm :=
    ⟨_, List.get?_eq_get hmrlen⟩
  have hreadc : readCell b (midRow fr tr) (midCol fc tc)
      = some (jsGet rowm (midCol fc tc)) := by
    unfold readCell
    rw [jsGet_nonneg _ hmr0, hrowm]
  rw [hreadc, Option.some_bind]
  by_cases hp : jsGet rowm (midCol fc tc) = some Cell.peg
  case neg => exact ⟨(false, b), by rw [if_pos (by simp [hp])]⟩
  rw [if_neg (by simp [hp])]
  obtain ⟨hmc0, hmcget⟩ := jsGet_eq_some_iff.mp hp
  have hmidIn : InBounds b (midRow fr tr) (midCol fc tc) :=
    InBounds_iff.mpr ⟨hmr0, hmc0, rowm, hrowm, (List.get?_eq_some.mp hmcget).1⟩
  obtain ⟨b1, hb1⟩ := setCell_total Cell.empty hf
  obtain ⟨b2, hb2⟩ := setCell_total Cell.empty ((InBounds_setCell hb1 _ _).mpr hmidIn)
  obtain ⟨b3, hb3⟩ := setCell_total Cell.peg
    ((InBounds_setCell hb2 _ _).mpr ((InBounds_setCell hb1 _ _).mpr ht))
  exact ⟨(true, b3), by rw [hb1, Option.some_bind, hb2, Option.some_bind, hb3]; rfl⟩

/-- With in-bounds endpoints, `tryMove` succeeds exactly when the distance
is a two-cell jump along one axis and the midpoint holds a peg. -/
theorem tryMove_success_iff {b : Board} {fr fc tr tc : Int}
    (hf : InBounds b fr fc) (ht : InBounds b tr tc) :
    (∃ b', tryMove b fr fc tr tc = some (true, b')) ↔
      isValidDistance (tr - fr) (tc - fc) = true ∧
      readCellOpt b (midRow fr tr) (midCol fc tc) = some Cell.peg := by
  constructor
  · rintro ⟨b', hb'⟩
    have h := tryMove_true_elim hb'
    exact ⟨h.1, h.2.1⟩
  · rintro ⟨hv, hmid⟩
    obtain ⟨res, hres⟩ := tryMove_total hf ht
    rcases res with ⟨flag, b'⟩
    cases flag with
    | true => exact ⟨b', hres⟩
    | false => exact absurd ⟨hv, hmid⟩ (tryMove_false_not hres)

/-- C1: for every board and in-bounds positions `(fr, fc)` and `(tr, tc)`,
`tryMove` succeeds iff the displacement is exactly two cells along one axis
and zero along the other and the midpoint holds a `PEG`; on success the
origin and midpoint become `EMPTY`, the destination becomes `PEG`, and no
other cell changes; otherwise it returns `false` with the board unchanged. -/
theorem tryMove_spec (b : Board) (fr fc tr tc : Int)
    (hf : InBounds b fr fc) (ht : InBounds b tr tc) :
    ((∃ b', tryMove b fr fc tr tc = some (true, b')) ↔
      isValidDistance (tr - fr) (tc - fc) = true ∧
      readCellOpt b (midRow fr tr) (midCol fc tc) = some Cell.peg) ∧
    (∀ b', tryMove b fr fc tr tc = some (true, b') →
      readCellOpt b' fr fc = some Cell.empty ∧
      readCellOpt b' (midRow fr tr) (midCol fc tc) = some Cell.empty ∧
      readCellOpt b' tr tc = some Cell.peg ∧
      ∀ r c : Int, ¬(r = fr ∧ c = fc) →
        ¬(r = midRow fr tr ∧ c = midCol fc tc) → ¬(r = tr ∧ c = tc) →
        readCellOpt b' r c = readCellOpt b r c) ∧
    (¬(isValidDistance (tr - fr) (tc - fc) = true ∧
        readCellOpt b (midRow fr tr) (midCol fc tc) = some Cell.peg) →
      tryMove b fr fc tr tc = some (false, b)) := by
  refine ⟨tryMove_success_iff hf ht, fun b' h => tryMove_true_reads h, fun hno => ?_⟩
  obtain ⟨res, hres⟩ := tryMove_total hf ht
  rcases res with ⟨flag, b'⟩
  cases flag with
  | true =>
    have h := tryMove_true_elim hres
    exact absurd ⟨h.1, h.2.1⟩ hno
  | false => rw [tryMove_false_elim hres] at hres; exact hres

theorem tryMove_spec_witness :
    InBounds initialBoardLayout 3 1 ∧ InBounds initialBoardLayout 3 3 ∧
    (∃ b', tryMove initialBoardLayout 3 1 3 3 = some (true, b')) :=
  ⟨by decide, by decide,
    ((tryMove_spec initialBoardLayout 3 1 3 3 (by decide) (by decide)).1).mpr
      (by decide)⟩

/-- C10: with in-bounds endpoints `tryMove` never throws; when the distance
check passes, halving the displacement is exact and yields offsets in
`{-1, 0, 1}`, and the computed midpoint lies between origin and
destination, differs from both, and is itself in-bounds (on a rectangular
board, as the program's boards always are). -/
theorem tryMove_safety (b : Board) (fr fc tr tc : Int)
    (hf : InBounds b fr fc) (ht : InBounds b tr tc)
    (hrect : ∃ w, ∀ row ∈ b, row.length = w) :
    (∃ res, tryMove b fr fc tr tc = some res) ∧
    (isValidDistance (tr - fr) (tc - fc) = true →
      2 * ((tr - fr) / 2) = tr - fr ∧ 2 * ((tc - fc) / 2) = tc - fc ∧
      ((tr - fr) / 2 = -1 ∨ (tr - fr) / 2 = 0 ∨ (tr - fr) / 2 = 1) ∧
      ((tc - fc) / 2 = -1 ∨ (tc - fc) / 2 = 0 ∨ (tc - fc) / 2 = 1) ∧
      min fr tr ≤ midRow fr tr ∧ midRow fr tr ≤ max fr tr ∧
      min fc tc ≤ midCol fc tc ∧ midCol fc tc ≤ max fc tc ∧
      ¬(midRow fr tr = fr ∧ midCol fc tc = fc) ∧
      ¬(midRow fr tr = tr ∧ midCol fc tc = tc) ∧
      InBounds b (midRow fr tr) (midCol fc tc)) := by
  obtain ⟨w, hw⟩ := hrect
  obtain ⟨hfr, hfc, rowf, hrowf, hlf⟩ := InBounds_iff.mp hf
  obtain ⟨htr0, htc0, rowt, hrowt, hltc⟩ := InBounds_iff.mp ht
  have hfrlen : fr.toNat < b.length := (List.get?_eq_some.mp hrowf).1
  have htrlen : tr.toNat < b.length := (List.get?_eq_some.mp hrowt).1
  have hwf : rowf.length = w := hw _ (List.get?_mem hrowf)
  have hwt : rowt.length = w := hw _ (List.get?_mem hrowt)
  refine ⟨tryMove_total hf ht, fun hv => ?_⟩
  have hd := isValidDistance_cases hv
  have hmr0 : 0 ≤ midRow fr tr := by unfold midRow; omega
  have hmrlen : (midRow fr tr).toNat < b.length := by unfold midRow; omega
  obtain ⟨rowm, hrowm⟩ : ∃ rowm, b.get? (midRow fr tr).toNat = some rowm :=
    ⟨_, List.get?_eq_get hmrlen⟩
  have hwm : rowm.length = w := hw _ (List.get?_mem hrowm)
  have hmc0 : 0 ≤ midCol fc tc := by unfold midCol; omega
  have hmclen : (midCol fc tc).toNat < rowm.length := by unfold midCol; omega
  refine ⟨by omega, by omega, by omega, by omega,
    by unfold midRow; omega, by unfold midRow; omega,
    by unfold midCol; omega, by unfold midCol; omega,
    by unfold midRow midCol; omega, by unfold midRow midCol; omega,
    InBounds_iff.mpr ⟨hmr0, hmc0, rowm, hrowm, hmclen⟩⟩

theorem tryMove_safety_witness :
    InBounds initialBoardLayout 3 1 ∧ InBounds initialBoardLayout 3 3 ∧
    (∃ w, ∀ row ∈ initialBoardLayout, row.length = w) ∧
    (∃ res, tryMove initialBoardLayout 3 1 3 3 = some res) :=
  ⟨by decide, by decide, ⟨7, by decide⟩,
    (tryMove_safety initialBoardLayout 3 1 3 3 (by decide) (by decide)
      ⟨7, by decide⟩).1⟩

theorem countRow_eq_sum (row : List Cell) :
    countRow row = (row.map fun v => if v = Cell.peg then 1 else 0).sum := by
  induction row with
  | nil => rfl
  | cons x xs ih =>
    simp only [countRow, List.filter_cons, List.map_cons, List.sum_cons] at ih ⊢
    by_cases hx : x = Cell.peg <;> simp [hx, ih] <;> omega

theorem sum_map_set {α : Type} (f : α → Nat) :
    ∀ (l : List α) (i : Nat) (h : i < l.length) (a : α),
      ((l.set i a).map f).sum + f (l.get ⟨i, h⟩) = (l.map f).sum + f a
  | x :: xs, 0, _, a => by
    simp only [List.set, List.map_cons, List.sum_cons, List.get]
    omega
  | x :: xs, i + 1, h, a => by
    have ih := sum_map_set f xs i (by simpa using h) a
    simp only [List.set, List.map_cons, List.sum_cons, List.get]
    omega

theorem countRow_set {row : List Cell} {i : Nat} (h : i < row.length) (v : Cell) :
    countRow (row.set i v) + (if row.get ⟨i, h⟩ = Cell.peg then 1 else 0)
      = countRow row + (if v = Cell.peg then 1 else 0) := by
  rw [countRow_eq_sum, countRow_eq_sum]
  exact sum_map_set (fun x => if x = Cell.peg then 1 else 0) row i h v

theorem countPegs_eq_sum (b : Board) : countPegs b = (b.map countRow).sum := by
  induction b with
  | nil => rfl
  | cons row t ih =>
    simp only [countPegs, List.flatten_cons, List.filter_append,
      List.length_append, List.map_cons, List.sum_cons] at ih ⊢
    rw [← ih]
    rfl

theorem countPegs_setCell {b b' : Board} {r c : Int} {v w : Cell}
    (hset : setCell b r c v = some b') (hread : readCellOpt b r c = some w) :
    countPegs b' + (if w = Cell.peg then 1 else 0)
      = countPegs b + (if v = Cell.peg then 1 else 0) := by
  obtain ⟨hr, hc, row, hrow, hlt, rfl⟩ := setCell_eq_some_iff.mp hset
  obtain ⟨-, -, row', hrow', hget⟩ := readCellOpt_eq_some_iff.mp hread
  obtain rfl : row = row' := by rw [hrow] at hrow'; exact Option.some_inj.mp hrow'
  have hrowlen : r.toNat < b.length := (List.get?_eq_some.mp hrow).1
  have hwget : row.get ⟨c.toNat, hlt⟩ = w := by
    have hg := List.get?_eq_get hlt
    rw [hg] at hget
    exact Option.some_inj.mp hget
  rw [countPegs_eq_sum, countPegs_eq_sum]
  have h1 := sum_map_set countRow b r.toNat hrowlen (row.set c.toNat v)
  have hbget : b.get ⟨r.toNat, hrowlen⟩ = row := by
    have hg := List.get?_eq_get hrowlen
    rw [hg] at hrow
    exact Option.some_inj.mp hrow
  rw [hbget] at h1
  have h2 := countRow_set hlt v
  rw [hwget] at h2
  omega

/-- C4 counterexample: a direct `tryMove` whose origin is `EMPTY` succeeds
(the distance is right and the midpoint holds a peg) yet leaves the peg
count unchanged at 1, not decremented to 0. -/
theorem tryMove_peg_count_counterexample :
    tryMove [[Cell.empty, Cell.peg, Cell.empty]] 0 0 0 2
        = some (true, [[Cell.empty, Cell.empty, Cell.peg]]) ∧
    countPegs [[Cell.empty, Cell.peg, Cell.empty]] = 1 ∧
    countPegs [[Cell.empty, Cell.empty, Cell.peg]] = 1 := by
  decide

/-- C4 (amended): whenever `tryMove` succeeds and additionally the origin
holds a `PEG` and the destination holds `EMPTY` — the guarantees
`selectCell` establishes before calling it — `countPegs` after the move is
exactly one less than before. -/
theorem tryMove_peg_count (b b' : Board) (fr fc tr tc : Int)
    (horigin : readCellOpt b fr fc = some Cell.peg)
    (hdest : readCellOpt b tr tc = some Cell.empty)
    (h : tryMove b fr fc tr tc = some (true, b')) :
    countPegs b' + 1 = countPegs b := by
  obtain ⟨hv, hmid, b1, b2, h1, h2, h3⟩ := tryMove_true_elim h
  obtain ⟨hom, hot, hmt, -⟩ := mid_facts hv
  have i1 : (if Cell.peg = Cell.peg then (1 : Nat) else 0) = 1 := by decide
  have i0 : (if Cell.empty = Cell.peg then (1 : Nat) else 0) = 0 := by decide
  have e1 := countPegs_setCell h1 horigin
  have hmid1 : readCellOpt b1 (midRow fr tr) (midCol fc tc) = some Cell.peg := by
    rw [setCell_read_other h1 (by tauto)]
    exact hmid
  have e2 := countPegs_setCell h2 hmid1
  have hdest2 : readCellOpt b2 tr tc = some Cell.empty := by
    rw [setCell_read_other h2 (by tauto), setCell_read_other h1 (by tauto)]
    exact hdest
  have e3 := countPegs_setCell h3 hdest2
  rw [i1, i0] at e1 e2 e3
  omega

theorem readCell_of_row {b : Board} {r : Int} {row : List Cell}
    (h : jsGet b r = some row) (c : Int) :
    readCell b r c = some (jsGet row c) := by
  unfold readCell
  rw [h]

/-- Exhaustive description of a completed `selectCell` call: it selected or
deselected a peg (board untouched), performed a successful move (selection
cleared), or did nothing. -/
theorem selectCell_cases {s : GameState} {r c : Int}
    {res : ActionType × GameState} (h : selectCell s r c = some res) :
    (readCellOpt s.board r c = some Cell.peg ∧ res.1 = ActionType.SELECT ∧
      res.2.board = s.board ∧
      (res.2.selectedPeg = none ∨ res.2.selectedPeg = some (r, c))) ∨
    (∃ sel b2, s.selectedPeg = some sel ∧
      readCellOpt s.board r c = some Cell.empty ∧
      tryMove s.board sel.1 sel.2 r c = some (true, b2) ∧
      res = (ActionType.MOVE_SUCCESS, { board := b2, selectedPeg := none })) ∨
    (res.1 = ActionType.NO_ACTION ∧ res.2 = s) := by
  obtain ⟨bd, selp⟩ := s
  unfold selectCell at h
  dsimp only at h ⊢
  cases hc : readCell bd r c with
  | none => rw [hc] at h; exact absurd h (by simp)
  | some cell =>
    rw [hc, Option.some_bind] at h
    by_cases hp : cell = some Cell.peg
    · rw [if_pos hp] at h
      subst hp
      obtain rfl := Option.some_inj.mp h
      refine Or.inl ⟨readCell_some_some_iff.mp hc, rfl, rfl, ?_⟩
      dsimp only
      split_ifs <;> simp
    · rw [if_neg hp] at h
      cases selp with
      | none =>
        dsimp only at h
        obtain rfl := Option.some_inj.mp h
        exact Or.inr (Or.inr ⟨rfl, rfl⟩)
      | some sel =>
        dsimp only at h
        by_cases he : cell = some Cell.empty
        · rw [if_pos he] at h
          subst he
          cases htm : tryMove bd sel.1 sel.2 r c with
          | none => rw [htm] at h; exact absurd h (by simp)
          | some mres =>
            rw [htm, Option.some_bind] at h
            rcases mres with ⟨flag, b2⟩
            cases flag with
            | true =>
              rw [if_pos rfl] at h
              obtain rfl := Option.some_inj.mp h
              exact Or.inr (Or.inl
                ⟨sel, b2, rfl, readCell_some_some_iff.mp hc, htm, rfl⟩)
            | false =>
              rw [if_neg (by simp)] at h
              obtain rfl := Option.some_inj.mp h
              obtain rfl := tryMove_false_elim htm
              exact Or.inr (Or.inr ⟨rfl, rfl⟩)
        · rw [if_neg he] at h
          obtain rfl := Option.some_inj.mp h
          exact Or.inr (Or.inr ⟨rfl, rfl⟩)

theorem tryMove_peg_count_witness :
    readCellOpt initialBoardLayout 3 1 = some Cell.peg ∧
    readCellOpt initialBoardLayout 3 3 = some Cell.empty ∧
    tryMove initialBoardLayout 3 1 3 3 = some (true, movedBoardExample) ∧
    countPegs movedBoardExample + 1 = countPegs initialBoardLayout :=
  ⟨by decide, by decide, by decide,
    tryMove_peg_count initialBoardLayout movedBoardExample 3 1 3 3
      (by decide) (by decide) (by decide)⟩

theorem ShapeInv_update {g : GameState} (hshape : ShapeInv g) (b2 : Board)
    (hframe : ∀ r c : Int, readCellOpt b2 r c = readCellOpt g.board r c ∨
      (readCellOpt b2 r c ≠ some Cell.invalid ∧
        readCellOpt g.board r c ≠ some Cell.invalid)) :
    ShapeInv { board := b2, selectedPeg := none } := by
  intro r c
  rcases hframe r c with he | ⟨h1, h2⟩
  · dsimp only
    rw [he]
    exact hshape r c
  · exact ⟨fun hx => absurd hx h1, fun hx => absurd ((hshape r c).mpr hx) h2⟩

/-- A completed `selectCell` call preserves both engine invariants. -/
theorem GoodState_select {g : GameState} {r c : Int}
    {res : ActionType × GameState} (hg : GoodState g)
    (h : selectCell g r c = some res) : GoodState res.2 := by
  obtain ⟨hsel, hshape⟩ := hg
  rcases selectCell_cases h with hcase | hcase | hcase
  · obtain ⟨hpeg, -, hb, hsp⟩ := hcase
    constructor
    · intro p hp
      rcases hsp with h0 | h0
      · rw [h0] at hp; exact absurd hp (by simp)
      · rw [h0] at hp
        obtain rfl := Option.some_inj.mp hp
        rw [hb]
        exact hpeg
    · intro r' c'
      rw [hb]
      exact hshape r' c'
  · obtain ⟨sel, b2, hselq, hemp, htm, hres⟩ := hcase
    rw [hres]
    have horigin : readCellOpt g.board sel.1 sel.2 = some Cell.peg :=
      hsel sel hselq
    obtain ⟨hv, hmid, -⟩ := tryMove_true_elim htm
    obtain ⟨hsame, hmidv, hdestv, hframe⟩ := tryMove_true_reads htm
    constructor
    · intro p hp
      exact absurd hp (by simp)
    · apply ShapeInv_update hshape
      intro r' c'
      by_cases h1 : r' = sel.1 ∧ c' = sel.2
      · obtain ⟨rfl, rfl⟩ := h1
        exact Or.inr ⟨by rw [hsame]; simp, by rw [horigin]; simp⟩
      · by_cases h2 : r' = midRow sel.1 r ∧ c' = midCol sel.2 c
        · obtain ⟨rfl, rfl⟩ := h2
          exact Or.inr ⟨by rw [hmidv]; simp, by rw [hmid]; simp⟩
        · by_cases h3 : r' = r ∧ c' = c
          · obtain ⟨rfl, rfl⟩ := h3
            exact Or.inr ⟨by rw [hdestv]; simp, by rw [hemp]; simp⟩
          · exact Or.inl (hframe r' c' h1 h2 h3)
  · rw [hcase.2]
    exact ⟨hsel, hshape⟩

/-- Every completed engine/caretaker operation preserves the system
invariant. -/
theorem GoodSys_step {s s' : Sys} (op : Op) (hs : GoodSys s)
    (h : stepSys s op = some s') : GoodSys s' := by
  cases op with
  | select r c =>
    simp only [stepSys] at h
    cases hsel : selectCell s.game r c with
    | none => rw [hsel] at h; exact absurd h (by simp)
    | some res =>
      rw [hsel, Option.map_some'] at h
      obtain rfl := Option.some_inj.mp h
      exact ⟨GoodState_select hs.1 hsel, hs.2⟩
  | restart =>
    simp only [stepSys] at h
    obtain rfl := Option.some_inj.mp h
    refine ⟨⟨fun p hp => absurd hp (by simp [restartGame]), fun r c => Iff.rfl⟩, hs.2⟩
  | backup =>
    simp only [stepSys] at h
    obtain rfl := Option.some_inj.mp h
    refine ⟨hs.1, fun m hm => ?_⟩
    rcases List.mem_append.mp hm with hm | hm
    · exact hs.2 m hm
    · obtain rfl : m = save s.game := by simpa using hm
      exact hs.1
  | undo =>
    simp only [stepSys] at h
    cases hlast : s.mementos.getLast? with
    | none =>
      rw [hlast] at h
      simp only [Option.elim] at h
      obtain rfl := Option.some_inj.mp h
      exact hs
    | some m =>
      rw [hlast] at h
      simp only [Option.elim] at h
      obtain rfl := Option.some_inj.mp h
      refine ⟨hs.2 m (List.mem_of_mem_getLast? hlast), fun m' hm' => ?_⟩
      exact hs.2 m' (List.Sublist.mem hm' (List.dropLast_sublist s.mementos))

/-- Every reachable system state satisfies the invariants. -/
theorem reachableSys_good {s : Sys} (h : ReachableSys s) : GoodSys s := by
  induction h with
  | init =>
    refine ⟨⟨fun p hp => absurd hp (by simp [restartGame]), fun r c => Iff.rfl⟩,
      fun m hm => absurd hm (by simp)⟩
  | step op hR hstep ih => exact GoodSys_step op ih hstep

theorem countPegs_cons (row : List Cell) (t : Board) :
    countPegs (row :: t) = countRow row + countPegs t := by
  simp [countPegs, countRow, List.filter_append]

theorem row_scan_length (r0 : Nat) :
    ∀ (row : List Cell) (n : Nat),
      ((List.enumFrom n row).flatMap fun cc =>
        if cc.2 = Cell.peg then [(r0, cc.1)] else []).length = countRow row
  | [], _ => rfl
  | x :: xs, n => by
    simp only [List.enumFrom, List.flatMap_cons, List.length_append]
    rw [row_scan_length r0 xs (n + 1)]
    by_cases hx : x = Cell.peg <;> simp [hx, countRow, List.filter_cons] <;> omega

theorem pegCells_scan_length :
    ∀ (b : Board) (n : Nat),
      ((List.enumFrom n b).flatMap fun rw1 =>
        rw1.2.enum.flatMap fun cc =>
          if cc.2 = Cell.peg then [(rw1.1, cc.1)] else []).length = countPegs b
  | [], _ => rfl
  | row :: t, n => by
    simp only [List.enumFrom, List.flatMap_cons, List.length_append]
    rw [pegCells_scan_length t (n + 1), countPegs_cons]
    have hrow := row_scan_length n row 0
    simp only [List.enum] at hrow ⊢
    omega

theorem pegCells_length (b : Board) : (pegCells b).length = countPegs b := by
  unfold pegCells
  have h := pegCells_scan_length b 0
  simpa [List.enum] using h

theorem cellMoves_eq_spec (b : Board) (r c : Int) :
    cellMoves b r c = specCellMoves b r c := by
  unfold cellMoves specCellMoves cellAt
  have hfc : (specJumpDirections.filter fun d =>
        decide (readCellOpt b (r + d.1 / 2) (c + d.2 / 2) = some Cell.peg) &&
        decide (readCellOpt b (r + d.1) (c + d.2) = some Cell.empty))
      = specJumpDirections.filter fun d =>
        decide (readCellOpt b (r + d.1) (c + d.2) = some Cell.empty) &&
        decide (readCellOpt b (r + d.1 / 2) (c + d.2 / 2) = some Cell.peg) :=
    List.filter_congr fun d _ => Bool.and_comm _ _
  rw [hfc]
  have hperm : DIRECTIONS.Perm specJumpDirections := by decide
  exact (hperm.filter _).length_eq

/-- C2: `checkGameState` is a pure query whose `pegsRemaining` is the
number of `PEG` cells, whose `isWin` is true iff exactly one peg remains,
and whose `isGameOver` is true iff one peg remains or the count of
available moves — a peg with an adjacent `PEG` midpoint and an in-bounds
`EMPTY` landing cell two steps away, per direction — is zero. -/
theorem checkGameState_spec (b : Board) :
    checkGameState b =
      { isGameOver := (countPegs b == 1) || (specAvailableMoves b == 0)
        isWin := countPegs b == 1
        pegsRemaining := countPegs b } := by
  have hmap : ((pegCells b).map fun p => cellMoves b p.1 p.2)
      = (pegCells b).map fun p => specCellMoves b p.1 p.2 :=
    List.map_congr_left fun p _ => cellMoves_eq_spec b p.1 p.2
  unfold checkGameState specAvailableMoves
  rw [hmap, pegCells_length]

/-- C7 counterexample: selecting row 7 on the 7×7 board reads a property
of `undefined` (`board[7]` does not exist), so `selectCell` throws a
`TypeError` (modelled as `none`) instead of completing with `NO_ACTION`. -/
theorem selectCell_oob_counterexample :
    selectCell ⟨initialBoardLayout, none⟩ 7 0 = none := by
  decide

/-- C7 (amended): `selectCell` completes without a hard failure whenever
the row index is in bounds: in particular an out-of-bounds column reads an
`undefined` cell and yields `NO_ACTION` with no mutation; but an
out-of-bounds row index throws a `TypeError` rather than returning
`NO_ACTION`. -/
theorem selectCell_oob (s : GameState) (r c : Int) :
    (jsGet s.board r = none → selectCell s r c = none) ∧
    (∀ row, jsGet s.board r = some row → jsGet row c = none →
      selectCell s r c = some (ActionType.NO_ACTION, s)) := by
  constructor
  · intro h
    unfold selectCell
    rw [readCell_none_iff.mpr h]
    rfl
  · intro row hrow hc
    obtain ⟨bd, selp⟩ := s
    unfold selectCell
    rw [readCell_of_row hrow, hc, Option.some_bind]
    rw [if_neg (by simp)]
    cases selp with
    | none => rfl
    | some sel =>
      dsimp only
      rw [if_neg (by simp)]

theorem selectCell_oob_witness :
    selectCell restartGame 9 0 = none ∧
    selectCell restartGame 0 9 = some (ActionType.NO_ACTION, restartGame) :=
  ⟨(selectCell_oob restartGame 9 0).1 (by decide),
   (selectCell_oob restartGame 0 9).2
     [Cell.invalid, Cell.invalid, Cell.peg, Cell.peg, Cell.peg, Cell.invalid,
       Cell.invalid] (by decide) (by decide)⟩

/-- C8 counterexample: `getState` returns the memento's internal stored
reference itself (the same heap address), so writing through the returned
reference mutates the snapshot's stored state — the opposite of returning
a fresh deep copy that is never the internal reference. -/
theorem getState_alias_counterexample :
    RefModel.newConcreteMemento ⟨[refStateA]⟩ 0
      = some (⟨[refStateA, refStateA]⟩, ⟨1⟩) ∧
    RefModel.MementoRef.getState ⟨1⟩ = 1 ∧
    (RefModel.Heap.write ⟨[refStateA, refStateA]⟩
        (RefModel.MementoRef.getState ⟨1⟩) refStateB).read 1 = some refStateB ∧
    refStateB ≠ refStateA := by
  refine ⟨rfl, rfl, rfl, by decide⟩

/-- C8 (amended): `getState` hands out the internal reference rather than
a fresh copy, so mutating through the returned reference mutates the
snapshot; nevertheless the snapshot's stored state is never aliased with
the live engine state: the constructor's deep copy lives at a fresh
address, so mutating the engine object after capture leaves the snapshot's
stored state unchanged, and `restore` copies the value back into the
engine's own object, after which engine mutations still leave the snapshot
unchanged. -/
theorem memento_isolation (h h2 : RefModel.Heap) (a : Nat)
    (m : RefModel.MementoRef)
    (hcap : RefModel.newConcreteMemento h a = some (h2, m)) :
    m.getState = m.stateAddr ∧
    m.stateAddr ≠ a ∧
    h2.read m.stateAddr = h.read a ∧
    (∀ v, (h2.write a v).read m.stateAddr = h2.read m.stateAddr) ∧
    (∀ v h3, RefModel.restoreRef h2 a m = some h3 →
      h3.read a = h.read a ∧
      (h3.write a v).read m.stateAddr = h3.read m.stateAddr) := by
  unfold RefModel.newConcreteMemento at hcap
  cases hread : h.read a with
  | none => rw [hread] at hcap; exact absurd hcap (by simp)
  | some v0 =>
    rw [hread, Option.map_some'] at hcap
    obtain ⟨heq2, heqm⟩ := Prod.ext_iff.mp (Option.some_inj.mp hcap)
    dsimp only [RefModel.Heap.alloc] at heq2 heqm
    subst heq2
    subst heqm
    have halen : a < h.objs.length := (List.get?_eq_some.mp hread).1
    have hlen1 : a < (h.objs ++ [v0]).length := by
      simp only [List.length_append, List.length_cons, List.length_nil]
      omega
    refine ⟨rfl, show h.objs.length ≠ a by omega, ?_, ?_, ?_⟩
    · show (h.objs ++ [v0]).get? h.objs.length = some v0
      rw [List.get?_concat_length]
    · intro v
      show ((h.objs ++ [v0]).set a v).get? h.objs.length
          = (h.objs ++ [v0]).get? h.objs.length
      exact List.get?_set_ne v _ (by omega)
    · intro v h3 hres
      unfold RefModel.restoreRef at hres
      have hrm : RefModel.Heap.read ⟨h.objs ++ [v0]⟩
          (RefModel.MementoRef.getState ⟨h.objs.length⟩) = some v0 := by
        show (h.objs ++ [v0]).get? h.objs.length = some v0
        exact List.get?_concat_length h.objs v0
      rw [hrm, Option.map_some'] at hres
      obtain rfl := Option.some_inj.mp hres
      constructor
      · show ((h.objs ++ [v0]).set a v0).get? a = some v0
        rw [List.get?_set_eq_of_lt _ hlen1]
      · show (((h.objs ++ [v0]).set a v0).set a v).get? h.objs.length
          = ((h.objs ++ [v0]).set a v0).get? h.objs.length
        rw [List.get?_set_ne v _ (by omega), List.get?_set_ne v0 _ (by omega)]

theorem memento_isolation_witness :
    (⟨1⟩ : RefModel.MementoRef).stateAddr ≠ 0 ∧
    RefModel.Heap.read ⟨[refStateA, refStateA]⟩
        (⟨1⟩ : RefModel.MementoRef).stateAddr
      = RefModel.Heap.read ⟨[refStateA]⟩ 0 :=
  ⟨(memento_isolation ⟨[refStateA]⟩ ⟨[refStateA, refStateA]⟩ 0 ⟨1⟩
      (by decide)).2.1,
   (memento_isolation ⟨[refStateA]⟩ ⟨[refStateA, refStateA]⟩ 0 ⟨1⟩
      (by decide)).2.2.1⟩

/-- C9 counterexample: start a game, select the peg at `(0, 3)`, then
click the empty centre `(3, 3)`.  The jump from `(0, 3)` is illegal
(distance 3), so no peg-capturing move is committed — `selectCell` returns
`NO_ACTION` and the engine state is unchanged — yet `handleCellClick`
pushed a snapshot before attempting the move, so the history grew by one
entry. -/
theorem history_lifecycle_counterexample :
    uiStep ⟨false, restartGame, []⟩ Gesture.startRestart
      = some ⟨true, restartGame, []⟩ ∧
    uiStep ⟨true, restartGame, []⟩ (Gesture.cellClick 0 3)
      = some ⟨true, ⟨initialBoardLayout, some (0, 3)⟩, []⟩ ∧
    uiStep ⟨true, ⟨initialBoardLayout, some (0, 3)⟩, []⟩ (Gesture.cellClick 3 3)
      = some ⟨true, ⟨initialBoardLayout, some (0, 3)⟩,
          [⟨⟨initialBoardLayout, some (0, 3)⟩⟩]⟩ ∧
    (selectCell ⟨initialBoardLayout, some (0, 3)⟩ 3 3).map Prod.fst
      = some ActionType.NO_ACTION := by
  decide

/-- C9 (amended): over every processed gesture, the history is cleared
when a game starts or is reset; undo on a non-empty history pops exactly
the most recent snapshot (and is a no-op on an empty one); and a cell
click grows the history by exactly one snapshot — pushed immediately
before the move is attempted — precisely when the game is running, the
clicked cell is `EMPTY` and a peg is selected, i.e. on every attempted
move onto an empty cell whether or not that move succeeds; every other
click leaves the history unchanged. -/
theorem history_lifecycle (u u' : UIState) (g : Gesture)
    (h : uiStep u g = some u') :
    (g = Gesture.startRestart → u'.mementos = []) ∧
    (g = Gesture.stop → u'.mementos = []) ∧
    (g = Gesture.undoClick →
      (u.mementos = [] → u' = u) ∧
      (u.mementos ≠ [] → u'.mementos = u.mementos.dropLast ∧
        u.mementos.length = u'.mementos.length + 1)) ∧
    (∀ r c : Int, g = Gesture.cellClick r c →
      ((u.gameStarted = true ∧
          readCell u.game.board r c = some (some Cell.empty) ∧
          u.game.selectedPeg ≠ none) →
        u'.mementos = u.mementos ++ [save u.game]) ∧
      (¬(u.gameStarted = true ∧
          readCell u.game.board r c = some (some Cell.empty) ∧
          u.game.selectedPeg ≠ none) →
        u'.mementos = u.mementos)) := by
  cases g with
  | startRestart =>
    simp only [uiStep] at h
    obtain rfl := Option.some_inj.mp h
    exact ⟨fun _ => rfl, fun hg => Gesture.noConfusion hg,
      fun hg => Gesture.noConfusion hg,
      fun r c hg => Gesture.noConfusion hg⟩
  | stop =>
    simp only [uiStep] at h
    obtain rfl := Option.some_inj.mp h
    exact ⟨fun hg => Gesture.noConfusion hg, fun _ => rfl,
      fun hg => Gesture.noConfusion hg,
      fun r c hg => Gesture.noConfusion hg⟩
  | undoClick =>
    simp only [uiStep] at h
    cases hlast : u.mementos.getLast? with
    | none =>
      rw [hlast] at h
      simp only [Option.elim] at h
      obtain rfl := Option.some_inj.mp h
      exact ⟨fun hg => Gesture.noConfusion hg, fun hg => Gesture.noConfusion hg,
        fun _ => ⟨fun _ => rfl,
          fun hne => absurd (List.getLast?_eq_none_iff.mp hlast) hne⟩,
        fun r c hg => Gesture.noConfusion hg⟩
    | some m =>
      rw [hlast] at h
      simp only [Option.elim] at h
      obtain rfl := Option.some_inj.mp h
      refine ⟨fun hg => Gesture.noConfusion hg, fun hg => Gesture.noConfusion hg,
        fun _ => ⟨fun hemp => absurd hlast (by simp [hemp]),
          fun hne => ⟨rfl, ?_⟩⟩,
        fun r c hg => Gesture.noConfusion hg⟩
      have hdl := List.length_dropLast u.mementos
      have hpos : u.mementos.length ≠ 0 := fun h0 =>
        hne (List.length_eq_zero.mp h0)
      show u.mementos.length = u.mementos.dropLast.length + 1
      omega
  | cellClick r c =>
    simp only [uiStep, handleCellClick] at h
    cases hgs : u.gameStarted with
    | false =>
      rw [hgs] at h
      simp only [Bool.not_false, if_pos rfl] at h
      obtain rfl := Option.some_inj.mp h
      exact ⟨fun hg => Gesture.noConfusion hg, fun hg => Gesture.noConfusion hg,
        fun hg => Gesture.noConfusion hg,
        fun r' c' hg => by
          obtain ⟨rfl, rfl⟩ : r' = r ∧ c' = c := by
            cases hg; exact ⟨rfl, rfl⟩
          exact ⟨fun hcond => absurd hcond.1 (by simp),
            fun _ => rfl⟩⟩
    | true =>
      rw [hgs] at h
      simp only [Bool.not_true, Bool.false_eq_true, if_false] at h
      cases hrc : readCell u.game.board r c with
      | none => rw [hrc] at h; exact absurd h (by simp)
      | some cell =>
        rw [hrc, Option.some_bind] at h
        cases hsc : selectCell u.game r c with
        | none => rw [hsc] at h; exact absurd h (by simp)
        | some res =>
          rw [hsc, Option.some_bind] at h
          obtain rfl := Option.some_inj.mp h
          refine ⟨fun hg => Gesture.noConfusion hg,
            fun hg => Gesture.noConfusion hg,
            fun hg => Gesture.noConfusion hg,
            fun r' c' hg => ?_⟩
          obtain ⟨rfl, rfl⟩ : r' = r ∧ c' = c := by
            cases hg; exact ⟨rfl, rfl⟩
          constructor
          · rintro ⟨-, hcell, hsel⟩
            obtain rfl : cell = some Cell.empty :=
              Option.some_inj.mp (hrc ▸ hcell)
            show (if some Cell.empty = some Cell.empty ∧
                u.game.selectedPeg ≠ none then
                u.mementos ++ [save u.game] else u.mementos)
              = u.mementos ++ [save u.game]
            rw [if_pos ⟨rfl, hsel⟩]
          · intro hno
            have hcnot : ¬(cell = some Cell.empty ∧
                u.game.selectedPeg ≠ none) := by
              rintro ⟨rfl, hsel⟩
              exact hno ⟨by simp [hgs], hrc, hsel⟩
            show (if cell = some Cell.empty ∧ u.game.selectedPeg ≠ none then
                u.mementos ++ [save u.game] else u.mementos) = u.mementos
            rw [if_neg hcnot]

theorem history_lifecycle_witness :
    ([⟨⟨initialBoardLayout, some (0, 3)⟩⟩] : List ConcreteMemento)
      = [] ++ [save ⟨initialBoardLayout, some (0, 3)⟩] :=
  (history_lifecycle ⟨true, ⟨initialBoardLayout, some (0, 3)⟩, []⟩
      ⟨true, ⟨initialBoardLayout, some (0, 3)⟩,
        [⟨⟨initialBoardLayout, some (0, 3)⟩⟩]⟩
      (Gesture.cellClick 3 3) (by decide)).2.2.2 3 3 rfl
    |>.1 ⟨rfl, by decide, by decide⟩

/-- C5: in every engine state reachable from the initial layout by cell
selections, restarts, backups and undo/restore, at most one position is
selected (the selection is one optional value), and a non-null selection
always refers to a cell holding a `PEG` — in the live state and in every
archived snapshot. -/
theorem selection_invariant (s : Sys) (h : ReachableSys s) :
    (∀ p q : Int × Int, s.game.selectedPeg = some p →
      s.game.selectedPeg = some q → p = q) ∧
    (∀ p : Int × Int, s.game.selectedPeg = some p →
      readCellOpt s.game.board p.1 p.2 = some Cell.peg) ∧
    (∀ m ∈ s.mementos, ∀ p : Int × Int, m.state.selectedPeg = some p →
      readCellOpt m.state.board p.1 p.2 = some Cell.peg) := by
  have hg := reachableSys_good h
  exact ⟨fun p q hp hq => Option.some_inj.mp (hp ▸ hq),
    fun p hp => hg.1.1 p hp,
    fun m hm p hp => (hg.2 m hm).1 p hp⟩

theorem selection_invariant_witness :
    readCellOpt initialBoardLayout 3 1 = some Cell.peg :=
  (selection_invariant ⟨⟨initialBoardLayout, some (3, 1)⟩, []⟩
    (ReachableSys.step (Op.select 3 1) ReachableSys.init (by decide))).2.1
    (3, 1) rfl

/-- C6 counterexample: a direct `tryMove` call on the initial board with
the `OUT_OF_BOARD` origin `(1, 1)` succeeds (distance 2, midpoint `(2, 1)`
holds a peg) and overwrites that `OUT_OF_BOARD` cell with `EMPTY`. -/
theorem out_of_board_inert_counterexample :
    readCellOpt initialBoardLayout 1 1 = some Cell.invalid ∧
    (tryMove initialBoardLayout 1 1 3 1).map
        (fun res => (res.1, readCellOpt res.2 1 1))
      = some (true, some Cell.empty) := by
  decide

/-- C6 (amended): under the engine's driven operation — `selectCell`,
restart, backup, undo/restore of archived snapshots — a cell reads
`OUT_OF_BOARD` exactly when the initial layout reads `OUT_OF_BOARD` there,
so `OUT_OF_BOARD` cells never change value; and every successful
`selectCell` move uses a `PEG` origin, a `PEG` midpoint and an `EMPTY`
destination, never an `OUT_OF_BOARD` cell.  A direct `tryMove` call
bypassing `selectCell` does not verify its origin or destination and can
overwrite an `OUT_OF_BOARD` cell. -/
theorem out_of_board_inert (s : Sys) (h : ReachableSys s) :
    (∀ r c : Int,
      readCellOpt s.game.board r c = some Cell.invalid ↔
        readCellOpt initialBoardLayout r c = some Cell.invalid) ∧
    (∀ m ∈ s.mementos, ∀ r c : Int,
      readCellOpt m.state.board r c = some Cell.invalid ↔
        readCellOpt initialBoardLayout r c = some Cell.invalid) ∧
    (∀ (r c : Int) (act : ActionType) (g' : GameState),
      selectCell s.game r c = some (act, g') →
      act = ActionType.MOVE_SUCCESS →
      ∃ sel, s.game.selectedPeg = some sel ∧
        readCellOpt s.game.board sel.1 sel.2 = some Cell.peg ∧
        readCellOpt s.game.board (midRow sel.1 r) (midCol sel.2 c)
          = some Cell.peg ∧
        readCellOpt s.game.board r c = some Cell.empty) := by
  have hg := reachableSys_good h
  refine ⟨fun r c => hg.1.2 r c, fun m hm r c => (hg.2 m hm).2 r c, ?_⟩
  intro r c act g' hcall hact
  rcases selectCell_cases hcall with hcase | hcase | hcase
  · exact absurd (hact ▸ hcase.2.1) (by simp)
  · obtain ⟨sel, b2, hselq, hemp, htm, -⟩ := hcase
    obtain ⟨-, hmid, -⟩ := tryMove_true_elim htm
    exact ⟨sel, hselq, hg.1.1 sel hselq, hmid, hemp⟩
  · exact absurd (hact ▸ hcase.1) (by simp)

/-- C3: undo round-trips exactly.  `restore (save s)` with no intervening
mutation reproduces the identical board and selection; restoring a
pre-move snapshot after any completed move reproduces the pre-move state;
and at the caretaker level, backup before a move followed by the move and
then undo restores the pre-move engine state and history exactly. -/
theorem undo_round_trip (s t : GameState) (r c : Int) (S S1 S2 S3 : Sys) :
    restore s (save s) = s ∧
    (selectCell s r c = some (ActionType.MOVE_SUCCESS, t) →
      restore t (save s) = s) ∧
    (S.game = s → stepSys S Op.backup = some S1 →
      stepSys S1 (Op.select r c) = some S2 →
      stepSys S2 Op.undo = some S3 →
      S3.game = s ∧ S3.mementos = S.mementos) := by
  refine ⟨rfl, fun _ => rfl, fun hgame h1 h2 h3 => ?_⟩
  subst hgame
  simp only [stepSys] at h1
  obtain rfl := Option.some_inj.mp h1
  simp only [stepSys] at h2
  cases hsel : selectCell S.game r c with
  | none => rw [hsel] at h2; exact absurd h2 (by simp)
  | some res =>
    rw [hsel, Option.map_some'] at h2
    obtain rfl := Option.some_inj.mp h2
    simp only [stepSys] at h3
    rw [List.getLast?_concat] at h3
    simp only [Option.elim] at h3
    obtain rfl := Option.some_inj.mp h3
    exact ⟨rfl, List.dropLast_concat⟩

theorem undo_round_trip_witness :
    restore ⟨movedBoardExample, none⟩ (save ⟨initialBoardLayout, some (3, 1)⟩)
      = ⟨initialBoardLayout, some (3, 1)⟩ ∧
    ((⟨⟨initialBoardLayout, some (3, 1)⟩, []⟩ : Sys).game
        = ⟨initialBoardLayout, some (3, 1)⟩ ∧
      (⟨⟨initialBoardLayout, some (3, 1)⟩, []⟩ : Sys).mementos
        = (⟨⟨initialBoardLayout, some (3, 1)⟩, []⟩ : Sys).mementos) :=
  ⟨(undo_round_trip ⟨initialBoardLayout, some (3, 1)⟩ ⟨movedBoardExample, none⟩
      3 3 ⟨⟨initialBoardLayout, some (3, 1)⟩, []⟩
      ⟨⟨initialBoardLayout, some (3, 1)⟩, [save ⟨initialBoardLayout, some (3, 1)⟩]⟩
      ⟨⟨movedBoardExample, none⟩, [save ⟨initialBoardLayout, some (3, 1)⟩]⟩
      ⟨⟨initialBoardLayout, some (3, 1)⟩, []⟩).2.1 (by decide),
   (undo_round_trip ⟨initialBoardLayout, some (3, 1)⟩ ⟨movedBoardExample, none⟩
      3 3 ⟨⟨initialBoardLayout, some (3, 1)⟩, []⟩
      ⟨⟨initialBoardLayout, some (3, 1)⟩, [save ⟨initialBoardLayout, some (3, 1)⟩]⟩
      ⟨⟨movedBoardExample, none⟩, [save ⟨initialBoardLayout, some (3, 1)⟩]⟩
      ⟨⟨initialBoardLayout, some (3, 1)⟩, []⟩).2.2 rfl
      (by decide) (by decide) (by decide)⟩

theorem out_of_board_inert_witness :
    (readCellOpt movedBoardExample 0 0 = some Cell.invalid ↔
      readCellOpt initialBoardLayout 0 0 = some Cell.invalid) :=
  (out_of_board_inert ⟨⟨movedBoardExample, none⟩, []⟩
    (ReachableSys.step (Op.select 3 3)
      (show ReachableSys ⟨⟨initialBoardLayout, some (3, 1)⟩, []⟩ from
        ReachableSys.step (Op.select 3 1) ReachableSys.init (by decide))
      (by decide))).1 0 0

end PegSolitaire
